import Mathlib

/-
Verification of the async socket adapter in `anyio/_networking.py`.

Two complementary shallow embeddings are used:

1. A control-flow embedding of the `BaseSocket` coroutine methods
   (`accept`, `bind`, `connect`, `recv`, `recv_into`, `recvfrom`,
   `recvfrom_into`, `send`, `sendto`, `sendall`, `start_tls`).  Each method
   is a function of the scheduler's cancellation state and of an oracle
   describing the outcomes of the raw socket calls; it returns the result
   together with the trace of interactions (cancellation checks, raw socket
   calls, readiness waits).  Loops recurse structurally on the oracle list.

2. A data-level embedding of the `SocketStream` framing reads
   (`receive_exactly`, `receive_until`, `receive_chunks`).  The kernel-side
   receive queue is a `NetStream`: the bytes currently buffered plus the
   future deliveries, each delivery being pulled into the buffer when the
   buffer drains.  `recv(..., MSG_PEEK)` reads without removing, a plain
   `recv` removes what it returns.  Bytes are modelled as `Nat`.
-/

/-- A raw OS socket handle; `Handle.tls h` is the object produced by
`context.wrap_socket(h, ...)`. -/
inductive Handle where
  | base (n : Nat)
  | tls (h : Handle)
deriving DecidableEq

/-- Observable interactions of a `BaseSocket` method: the scheduler
cancellation check, readiness waits, thread offload, and the raw socket
calls. -/
inductive Ev where
  | check
  | waitR
  | waitW
  | thread
  | sAccept
  | sBind
  | sConnect
  | sGetsockopt
  | sRecv
  | sRecvInto
  | sRecvfrom
  | sRecvfromInto
  | sSend
  | sSendto
  | sWrap
  | sHandshake
deriving DecidableEq

/-- Failures surfaced by the embedded methods. `stuck` marks oracle
exhaustion (the run needed more outcomes than supplied) and is unreachable
in the theorems below. -/
inductive Err where
  | cancelled
  | wouldBlock
  | osError (code : Nat)
  | hsFail
  | stuck
deriving DecidableEq

/-- Outcome of one non-blocking raw socket attempt that the source retries
at most once (`accept`, `recvfrom`, `recvfrom_into`, `sendto`). -/
inductive TryOut where
  | ok
  | blocked
deriving DecidableEq

/-- Outcome of one raw `recv`/`recv_into`/`send` attempt inside the retry
loops: success, `BlockingIOError`, `ssl.SSLWantReadError`, or
`ssl.SSLWantWriteError`. -/
inductive IOOut where
  | ok
  | blocked
  | wantRead
  | wantWrite
deriving DecidableEq

/-- Outcome of one raw `send` attempt inside `sendall`: the kernel accepts
`n` bytes (possibly a short count), or one of the retryable errors. -/
inductive SendRes where
  | accepted (n : Nat)
  | blocked
  | wantWrite
  | wantRead
deriving DecidableEq

/-- Outcome of one `do_handshake` attempt in `start_tls`.  For the
want-read/want-write outcomes, `wfail` tells whether the readiness wait
that follows fails (e.g. the task is cancelled while suspended). -/
inductive HsStep where
  | ok
  | wantRead (wfail : Bool)
  | wantWrite (wfail : Bool)
  | fail
deriving DecidableEq

namespace BaseSocket

/-- `BaseSocket.accept`: cancellation check, then a raw accept with a
single retry after waiting for read readiness. -/
def accept (cancelled : Bool) (o1 o2 : TryOut) : Except Err Unit × List Ev :=
  if cancelled then (.error .cancelled, [.check])
  else
    match o1 with
    | .ok => (.ok (), [.check, .sAccept])
    | .blocked =>
      match o2 with
      | .ok => (.ok (), [.check, .sAccept, .waitR, .sAccept])
      | .blocked => (.error .wouldBlock, [.check, .sAccept, .waitR, .sAccept])

/-- The two shapes of address accepted by `BaseSocket.bind`: a resolved
(ip, port) pair, or anything else (hostname pair, filesystem path, ...). -/
inductive BindAddr where
  | ipPair
  | other
deriving DecidableEq

/-- `BaseSocket.bind`: cancellation check, then a direct raw bind for a
resolved (ip, port) pair, otherwise the bind runs in a worker thread. -/
def bind (cancelled : Bool) (a : BindAddr) : Except Err Unit × List Ev :=
  if cancelled then (.error .cancelled, [.check])
  else
    match a with
    | .ipPair => (.ok (), [.check, .sBind])
    | .other => (.ok (), [.check, .thread])

/-- `BaseSocket.connect`: cancellation check; a raw connect that may report
in-progress (`BlockingIOError`), in which case the task waits for write
readiness; then the pending socket error is read with `getsockopt` and a
nonzero code is raised as `OSError`. -/
def connect (cancelled : Bool) (o : TryOut) (soErr : Nat) :
    Except Err Unit × List Ev :=
  if cancelled then (.error .cancelled, [.check])
  else
    let evs := match o with
      | .ok => [Ev.check, Ev.sConnect, Ev.sGetsockopt]
      | .blocked => [Ev.check, Ev.sConnect, Ev.waitW, Ev.sGetsockopt]
    if soErr ≠ 0 then (.error (.osError soErr), evs) else (.ok (), evs)

/-- `BaseSocket.recv`: loop, each iteration checking cancellation and then
attempting a raw `recv`, suspending on read or write readiness as
signalled. -/
def recv (cancelled : Bool) : List IOOut → Except Err Unit × List Ev
  | [] =>
    if cancelled then (.error .cancelled, [.check]) else (.error .stuck, [.check])
  | o :: rest =>
    if cancelled then (.error .cancelled, [.check])
    else
      match o with
      | .ok => (.ok (), [.check, .sRecv])
      | .blocked =>
        let r := recv cancelled rest
        (r.1, .check :: .sRecv :: .waitR :: r.2)
      | .wantRead =>
        let r := recv cancelled rest
        (r.1, .check :: .sRecv :: .waitR :: r.2)
      | .wantWrite =>
        let r := recv cancelled rest
        (r.1, .check :: .sRecv :: .waitW :: r.2)

/-- `BaseSocket.recv_into`: same loop as `recv` with `recv_into` as the raw
call. -/
def recv_into (cancelled : Bool) : List IOOut → Except Err Unit × List Ev
  | [] =>
    if cancelled then (.error .cancelled, [.check]) else (.error .stuck, [.check])
  | o :: rest =>
    if cancelled then (.error .cancelled, [.check])
    else
      match o with
      | .ok => (.ok (), [.check, .sRecvInto])
      | .blocked =>
        let r := recv_into cancelled rest
        (r.1, .check :: .sRecvInto :: .waitR :: r.2)
      | .wantRead =>
        let r := recv_into cancelled rest
        (r.1, .check :: .sRecvInto :: .waitR :: r.2)
      | .wantWrite =>
        let r := recv_into cancelled rest
        (r.1, .check :: .sRecvInto :: .waitW :: r.2)

/-- `BaseSocket.recvfrom`: cancellation check, raw `recvfrom`, and a single
retry after waiting for read readiness. -/
def recvfrom (cancelled : Bool) (o1 o2 : TryOut) : Except Err Unit × List Ev :=
  if cancelled then (.error .cancelled, [.check])
  else
    match o1 with
    | .ok => (.ok (), [.check, .sRecvfrom])
    | .blocked =>
      match o2 with
      | .ok => (.ok (), [.check, .sRecvfrom, .waitR, .sRecvfrom])
      | .blocked => (.error .wouldBlock, [.check, .sRecvfrom, .waitR, .sRecvfrom])

/-- `BaseSocket.recvfrom_into`: cancellation check, raw `recvfrom_into`,
and a single retry after waiting for read readiness. -/
def recvfrom_into (cancelled : Bool) (o1 o2 : TryOut) :
    Except Err Unit × List Ev :=
  if cancelled then (.error .cancelled, [.check])
  else
    match o1 with
    | .ok => (.ok (), [.check, .sRecvfromInto])
    | .blocked =>
      match o2 with
      | .ok => (.ok (), [.check, .sRecvfromInto, .waitR, .sRecvfromInto])
      | .blocked =>
        (.error .wouldBlock, [.check, .sRecvfromInto, .waitR, .sRecvfromInto])

/-- `BaseSocket.send`: loop, each iteration checking cancellation and then
attempting a raw `send`, suspending on write readiness for
`BlockingIOError`/`SSLWantWriteError` and on read readiness for
`SSLWantReadError`. -/
def send (cancelled : Bool) : List IOOut → Except Err Unit × List Ev
  | [] =>
    if cancelled then (.error .cancelled, [.check]) else (.error .stuck, [.check])
  | o :: rest =>
    if cancelled then (.error .cancelled, [.check])
    else
      match o with
      | .ok => (.ok (), [.check, .sSend])
      | .blocked =>
        let r := send cancelled rest
        (r.1, .check :: .sSend :: .waitW :: r.2)
      | .wantWrite =>
        let r := send cancelled rest
        (r.1, .check :: .sSend :: .waitW :: r.2)
      | .wantRead =>
        let r := send cancelled rest
        (r.1, .check :: .sSend :: .waitR :: r.2)

/-- `BaseSocket.sendto`: cancellation check, raw `sendto`, and a single
retry after waiting for write readiness. -/
def sendto (cancelled : Bool) (o1 o2 : TryOut) : Except Err Unit × List Ev :=
  if cancelled then (.error .cancelled, [.check])
  else
    match o1 with
    | .ok => (.ok (), [.check, .sSendto])
    | .blocked =>
      match o2 with
      | .ok => (.ok (), [.check, .sSendto, .waitW, .sSendto])
      | .blocked => (.error .wouldBlock, [.check, .sSendto, .waitW, .sSendto])

/-- The loop of `BaseSocket.sendall`.  `toSend` is the running count of
bytes still to flush (a Python int, so it may go negative), `wire` is the
concatenation of the byte runs handed to the kernel so far.  Each
successful raw `send(data, flags)` call passes the whole of `data` to the
kernel, which accepts `min n data.length` bytes of it; the source
decrements `to_send` by that count but never advances `data`. -/
def sendallGo (cancelled : Bool) (data : List Nat) :
    Int → List SendRes → List Nat → Except Err Unit × List Ev × List Nat
  | toSend, outs, wire =>
    if 0 < toSend then
      if cancelled then (.error .cancelled, [.check], wire)
      else
        match outs with
        | [] => (.error .stuck, [.check], wire)
        | .accepted n :: rest =>
          let sent := min n data.length
          let r := sendallGo cancelled data (toSend - sent) rest
            (wire ++ data.take sent)
          (r.1, .check :: .sSend :: r.2.1, r.2.2)
        | .blocked :: rest =>
          let r := sendallGo cancelled data toSend rest wire
          (r.1, .check :: .sSend :: .waitW :: r.2.1, r.2.2)
        | .wantWrite :: rest =>
          let r := sendallGo cancelled data toSend rest wire
          (r.1, .check :: .sSend :: .waitW :: r.2.1, r.2.2)
        | .wantRead :: rest =>
          let r := sendallGo cancelled data toSend rest wire
          (r.1, .check :: .sSend :: .waitR :: r.2.1, r.2.2)
    else (.ok (), [], wire)

/-- `BaseSocket.sendall`: `to_send` starts at `len(data)` and the loop runs
while it is positive. -/
def sendall (cancelled : Bool) (data : List Nat) (outs : List SendRes) :
    Except Err Unit × List Ev × List Nat :=
  sendallGo cancelled data (data.length : Int) outs []

/-- The handshake loop of `BaseSocket.start_tls`.  `raw` is the current
`self._raw_socket` (already the wrapped handle), `plain` the saved
pre-upgrade handle.  A failing readiness wait propagates from inside the
`except SSLWant...` handler, so it is not caught by the
`except BaseException` clause and the handle is not restored; any other
`do_handshake` failure restores `plain` before re-raising. -/
def startTlsGo (raw plain : Handle) : List HsStep → Except Err Unit × Handle × List Ev
  | [] => (.error .stuck, raw, [])
  | .ok :: _ => (.ok (), raw, [.sHandshake])
  | .wantRead w :: rest =>
    if w then (.error .cancelled, raw, [.sHandshake, .waitR])
    else
      let r := startTlsGo raw plain rest
      (r.1, r.2.1, .sHandshake :: .waitR :: r.2.2)
  | .wantWrite w :: rest =>
    if w then (.error .cancelled, raw, [.sHandshake, .waitW])
    else
      let r := startTlsGo raw plain rest
      (r.1, r.2.1, .sHandshake :: .waitW :: r.2.2)
  | .fail :: _ => (.error .hsFail, plain, [.sHandshake])

/-- `BaseSocket.start_tls`: saves the plain handle, replaces
`self._raw_socket` with the wrapped handle, then runs the handshake loop.
Returns the result, the final `self._raw_socket`, and the trace.  The
source performs no cancellation check in this method. -/
def start_tls (raw0 : Handle) (steps : List HsStep) :
    Except Err Unit × Handle × List Ev :=
  let plain := raw0
  let r := startTlsGo (Handle.tls raw0) plain steps
  (r.1, r.2.1, .sWrap :: r.2.2)

end BaseSocket

/-- `SocketStreamServer.accept` after the underlying accept returned the
new socket `sock0`: wrap it in a stream and, when a TLS context is
configured, upgrade it; on any failure close the accepted socket and
re-raise.  Returns the result (carrying the returned stream's socket
handle), the accepted socket's final handle, and whether it was closed. -/
def serverAccept (sslCtx : Bool) (sock0 : Handle) (steps : List HsStep) :
    Except Err Handle × Handle × Bool :=
  if sslCtx then
    let r := BaseSocket.start_tls sock0 steps
    match r.1 with
    | .ok _ => (.ok r.2.1, r.2.1, false)
    | .error e => (.error e, r.2.1, true)
  else (.ok sock0, sock0, false)

/-- The raw call selected by `DatagramSocket.send`. -/
inductive DgAction where
  | sendto (data : List Nat) (addr : Nat × Nat)
  | send (data : List Nat)
deriving DecidableEq

namespace DatagramSocket

/-- `DatagramSocket.send`: only when both `address` and `port` are present
does the datagram go out through `sendto`; in every other case the method
falls back to `send` on the implicitly connected socket. -/
def send (data : List Nat) (address : Option Nat) (port : Option Nat) :
    DgAction :=
  match address, port with
  | some a, some p => DgAction.sendto data (a, p)
  | _, _ => DgAction.send data

end DatagramSocket

/-- The kernel-side receive queue backing a `SocketStream`: `avail` is what
is currently buffered, `arrivals` are the future deliveries; a delivery is
pulled into the buffer once the buffer drains.  End of stream is reached
when both are exhausted. -/
structure NetStream where
  avail : List Nat
  arrivals : List (List Nat)
deriving DecidableEq

/-- All bytes the stream will ever deliver, in order. -/
def streamBytes (s : NetStream) : List Nat :=
  s.avail ++ s.arrivals.flatten

/-- Well-formedness of the delivery schedule: a delivery is never empty (a
raw `recv` returns zero bytes only at end of stream). -/
def chunksOK (s : NetStream) : Prop :=
  ∀ c ∈ s.arrivals, c ≠ []

instance (s : NetStream) : Decidable (chunksOK s) :=
  inferInstanceAs (Decidable (∀ c ∈ s.arrivals, c ≠ []))

/-- Pull the next delivery into the buffer when the buffer is empty. -/
def pullIfEmpty (s : NetStream) : NetStream :=
  match s.avail with
  | [] =>
    match s.arrivals with
    | [] => s
    | c :: cs => ⟨c, cs⟩
  | _ => s

/-- `recv(size, MSG_PEEK)`: return up to `size` buffered bytes without
removing them. -/
def recvPeek (size : Nat) (s : NetStream) : List Nat × NetStream :=
  let t := pullIfEmpty s
  (t.avail.take size, t)

/-- `recv(size)`: return up to `size` buffered bytes and remove them from
the queue. -/
def recvConsume (size : Nat) (s : NetStream) : List Nat × NetStream :=
  let t := pullIfEmpty s
  (t.avail.take size, ⟨t.avail.drop size, t.arrivals⟩)

/-- The failures raised by the framed reads, each carrying bytes:
`IncompleteRead` the bytes accumulated when the stream ended,
`DelimiterNotFound` the bytes scanned when the bound was hit. -/
inductive StreamErr where
  | IncompleteRead (data : List Nat)
  | DelimiterNotFound (data : List Nat)
deriving DecidableEq

/-- Scan `buf` for `d` at positions `i, i+1, ...`, for `fuel` positions;
position `i` matches when the `d.length` bytes of `buf` starting at `i`
equal `d`. -/
def findFrom (buf d : List Nat) : Nat → Nat → Option Nat
  | _, 0 => none
  | i, fuel + 1 =>
    if (buf.drop i).take d.length = d then some i
    else findFrom buf d (i + 1) fuel

/-- Python's `buf.find(d, start)`: a negative `start` is interpreted
relative to the end of `buf` as in slice notation (added to `len(buf)` and
clamped below at 0, never above); returns the first match position at or
after it, or -1. -/
def pyFind (buf d : List Nat) (start : Int) : Int :=
  let s : Nat := if start < 0 then ((buf.length : Int) + start).toNat
    else start.toNat
  match findFrom buf d s (buf.length + 1 - s) with
  | some i => (i : Int)
  | none => -1

/-- The loop of `SocketStream.receive_exactly`: while bytes remain to be
read, `recv_into` the remaining count; a zero-byte read raises
`IncompleteRead` with what accumulated; `acc` plays the role of the filled
region of the preallocated buffer.  `fuel` only bounds the iterations; any
fuel above `nbytes` is never exhausted, since each iteration reads at
least one byte. -/
def receiveExactlyGo : Nat → Nat → List Nat → NetStream →
    Except StreamErr (List Nat) × NetStream
  | 0, _, acc, s => (.error (.IncompleteRead acc), s)
  | fuel + 1, nbytes, acc, s =>
    if 0 < nbytes then
      let r := recvConsume nbytes s
      if r.1 = [] then (.error (.IncompleteRead acc), r.2)
      else receiveExactlyGo fuel (nbytes - r.1.length) (acc ++ r.1) r.2
    else (.ok acc, s)

/-- `SocketStream.receive_exactly(nbytes)`. -/
def receive_exactly (nbytes : Nat) (s : NetStream) :
    Except StreamErr (List Nat) × NetStream :=
  receiveExactlyGo (nbytes + 1) nbytes [] s

/-- The loop of `SocketStream.receive_until`: while the accumulated buffer
is below `maxSize`, peek up to the remaining allowance; an empty peek
raises `IncompleteRead`; otherwise append the peeked bytes, run
`buf.find(delimiter, offset)`, and on a hit consume `index + len(delimiter)`
bytes and return the bytes before the hit, else consume exactly the peeked
bytes and advance `offset` by `len(data) - len(delimiter) + 1` (an Int, as
in the source, where it may go negative).  `fuel` only bounds the
iterations; any fuel above `maxSize` is never exhausted, since the buffer
grows by at least one byte per iteration. -/
def receiveUntilGo (d : List Nat) (maxSize : Nat) :
    Nat → Int → List Nat → NetStream →
    Except StreamErr (List Nat) × NetStream
  | 0, _, buf, s => (.error (.DelimiterNotFound buf), s)
  | fuel + 1, offset, buf, s =>
    if buf.length < maxSize then
      let readSize := maxSize - buf.length
      let r := recvPeek readSize s
      if r.1 = [] then (.error (.IncompleteRead buf), r.2)
      else
        let buf1 := buf ++ r.1
        let idx := pyFind buf1 d offset
        if 0 ≤ idx then
          let c := recvConsume (idx.toNat + d.length) r.2
          (.ok (buf1.take idx.toNat), c.2)
        else
          let c := recvConsume r.1.length r.2
          receiveUntilGo d maxSize fuel (offset + r.1.length - d.length + 1)
            buf1 c.2
    else (.error (.DelimiterNotFound buf), s)

/-- `SocketStream.receive_until(delimiter, max_size)`. -/
def receive_until (d : List Nat) (maxSize : Nat) (s : NetStream) :
    Except StreamErr (List Nat) × NetStream :=
  receiveUntilGo d maxSize (maxSize + 1) 0 [] s

/-- The loop of `SocketStream.receive_chunks`: repeatedly
`receive_some(max_size)` (a plain consuming `recv`); yield each non-empty
result, stop at the first empty one.  `fuel` only bounds the iterations;
any fuel above the total byte count is never exhausted. -/
def receiveChunksGo (maxSize : Nat) : Nat → NetStream →
    Option (List (List Nat) × NetStream)
  | 0, _ => none
  | fuel + 1, s =>
    let r := recvConsume maxSize s
    if r.1 = [] then some ([], r.2)
    else
      match receiveChunksGo maxSize fuel r.2 with
      | some p => some (r.1 :: p.1, p.2)
      | none => none

/-- `SocketStream.receive_chunks(max_size)`: the full (finite) sequence of
yielded chunks together with the final stream state. -/
def receive_chunks (maxSize : Nat) (s : NetStream) :
    Option (List (List Nat) × NetStream) :=
  receiveChunksGo maxSize ((streamBytes s).length + 1) s

theorem startTlsGo_ok_handle (raw plain : Handle) :
    ∀ steps : List HsStep, (BaseSocket.startTlsGo raw plain steps).1 = .ok () →
    (BaseSocket.startTlsGo raw plain steps).2.1 = raw := by
  intro steps
  induction steps with
  | nil => intro h; simp [BaseSocket.startTlsGo] at h
  | cons o rest ih =>
    cases o with
    | ok => intro _; rfl
    | wantRead w =>
      cases w with
      | true => intro h; simp [BaseSocket.startTlsGo] at h
      | false => intro h; exact ih (by simpa [BaseSocket.startTlsGo] using h)
    | wantWrite w =>
      cases w with
      | true => intro h; simp [BaseSocket.startTlsGo] at h
      | false => intro h; exact ih (by simpa [BaseSocket.startTlsGo] using h)
    | fail => intro h; simp [BaseSocket.startTlsGo] at h

theorem startTlsGo_no_check (raw plain : Handle) :
    ∀ steps : List HsStep, Ev.check ∉ (BaseSocket.startTlsGo raw plain steps).2.2 := by
  intro steps
  induction steps with
  | nil => simp [BaseSocket.startTlsGo]
  | cons o rest ih =>
    cases o with
    | ok => simp [BaseSocket.startTlsGo]
    | wantRead w =>
      cases w with
      | false => simp [BaseSocket.startTlsGo, ih]
      | true => simp [BaseSocket.startTlsGo]
    | wantWrite w =>
      cases w with
      | false => simp [BaseSocket.startTlsGo, ih]
      | true => simp [BaseSocket.startTlsGo]
    | fail => simp [BaseSocket.startTlsGo]

/-- Claim C1: `sendall` is claimed to pass exactly the `L` bytes of `data`,
in order and without duplication, to the raw socket even under short
writes.  The code never advances `data` after a short write, so it resends
the whole buffer: on `data = [1, 2]` with the kernel accepting 1 byte and
then 2 bytes, the wire sees `[1, 1, 2]` — three bytes with the first byte
duplicated — while the claim demands exactly `[1, 2]`. -/
theorem sendall_duplicates_after_short_write :
    BaseSocket.sendall false [1, 2] [.accepted 1, .accepted 2] =
      (.ok (), [.check, .sSend, .check, .sSend], [1, 1, 2]) ∧
    ([1, 1, 2] : List Nat) ≠ [1, 2] ∧
    (BaseSocket.sendall false [1, 2] [.accepted 1, .accepted 2]).2.2.length ≠
      [1, 2].length := by
  refine ⟨rfl, by decide, by decide⟩

/-- Claim C3: a failure raised at a readiness suspension point inside the
`start_tls` handshake loop is claimed to restore the plain handle.  In the
code the waits sit inside the `except SSLWant...` handlers, so a failure
there (here: cancellation while waiting for read readiness after the
handshake asked for more data) escapes the `except BaseException` clause:
the method propagates the failure while `self._raw_socket` is still the
TLS-wrapped handle, not the saved plain one. -/
theorem start_tls_no_restore_at_suspension :
    BaseSocket.start_tls (Handle.base 7) [.wantRead true] =
      (.error .cancelled, Handle.tls (Handle.base 7),
        [.sWrap, .sHandshake, .waitR]) ∧
    Handle.tls (Handle.base 7) ≠ Handle.base 7 := by
  refine ⟨rfl, by decide⟩

/-- Claim C4, counterexample: `start_tls` wraps the socket and runs the
handshake without ever calling `_check_cancelled` (its trace holds no
cancellation check), and `sendall` on empty data returns successfully even
when the task is cancelled — so not every operation checks cancellation
first and fails when cancelled. -/
theorem not_every_op_checks_cancellation :
    BaseSocket.start_tls (Handle.base 0) [.ok] =
      (.ok (), Handle.tls (Handle.base 0), [.sWrap, .sHandshake]) ∧
    Ev.check ∉ [Ev.sWrap, Ev.sHandshake] ∧
    BaseSocket.sendall true [] [] = (.ok (), [], []) := by
  refine ⟨rfl, by decide, rfl⟩

/-- Claim C4, amended: every `BaseSocket` operation except `start_tls`
checks cancellation before touching the socket — its trace begins with the
scheduler check, and when the task is cancelled it fails immediately with
the cancellation signal, its trace being the bare check with no socket
interaction — with the one caveat that `sendall` on empty data returns at
once without any check or socket interaction; `start_tls` never consults
the scheduler's cancellation check at all. -/
theorem cancellation_check_contract :
    (∀ o1 o2, BaseSocket.accept true o1 o2 = (.error .cancelled, [.check])) ∧
    (∀ a, BaseSocket.bind true a = (.error .cancelled, [.check])) ∧
    (∀ o e, BaseSocket.connect true o e = (.error .cancelled, [.check])) ∧
    (∀ outs, BaseSocket.recv true outs = (.error .cancelled, [.check])) ∧
    (∀ outs, BaseSocket.recv_into true outs = (.error .cancelled, [.check])) ∧
    (∀ o1 o2, BaseSocket.recvfrom true o1 o2 = (.error .cancelled, [.check])) ∧
    (∀ o1 o2,
      BaseSocket.recvfrom_into true o1 o2 = (.error .cancelled, [.check])) ∧
    (∀ outs, BaseSocket.send true outs = (.error .cancelled, [.check])) ∧
    (∀ o1 o2, BaseSocket.sendto true o1 o2 = (.error .cancelled, [.check])) ∧
    (∀ b data outs,
      BaseSocket.sendall true (b :: data) outs =
        (.error .cancelled, [.check], [])) ∧
    (∀ c o1 o2, (BaseSocket.accept c o1 o2).2.head? = some Ev.check) ∧
    (∀ c a, (BaseSocket.bind c a).2.head? = some Ev.check) ∧
    (∀ c o e, (BaseSocket.connect c o e).2.head? = some Ev.check) ∧
    (∀ c outs, (BaseSocket.recv c outs).2.head? = some Ev.check) ∧
    (∀ c outs, (BaseSocket.recv_into c outs).2.head? = some Ev.check) ∧
    (∀ c o1 o2, (BaseSocket.recvfrom c o1 o2).2.head? = some Ev.check) ∧
    (∀ c o1 o2, (BaseSocket.recvfrom_into c o1 o2).2.head? = some Ev.check) ∧
    (∀ c outs, (BaseSocket.send c outs).2.head? = some Ev.check) ∧
    (∀ c o1 o2, (BaseSocket.sendto c o1 o2).2.head? = some Ev.check) ∧
    (∀ c b data outs,
      (BaseSocket.sendall c (b :: data) outs).2.1.head? = some Ev.check) ∧
    (∀ raw0 steps, Ev.check ∉ (BaseSocket.start_tls raw0 steps).2.2) := by
  have hpos : ∀ (b : Nat) (data : List Nat), (0 : Int) < ((b :: data).length : Int) := by
    intro b data
    exact_mod_cast Nat.succ_pos data.length
  refine ⟨?_, ?_, ?_, ?_, ?_, ?_, ?_, ?_, ?_, ?_, ?_, ?_, ?_, ?_, ?_, ?_, ?_,
    ?_, ?_, ?_, ?_⟩
  · intro o1 o2; rfl
  · intro a; rfl
  · intro o e; rfl
  · intro outs; cases outs <;> rfl
  · intro outs; cases outs <;> rfl
  · intro o1 o2; rfl
  · intro o1 o2; rfl
  · intro outs; cases outs <;> rfl
  · intro o1 o2; rfl
  · intro b data outs
    unfold BaseSocket.sendall BaseSocket.sendallGo
    rw [if_pos (hpos b data)]
    rfl
  · intro c o1 o2
    cases c <;> cases o1 <;> cases o2 <;> rfl
  · intro c a
    cases c <;> cases a <;> rfl
  · intro c o e
    cases c <;> cases o <;> simp [BaseSocket.connect] <;> split <;> rfl
  · intro c outs
    cases c <;> cases outs with
    | nil => rfl
    | cons o rest => cases o <;> rfl
  · intro c outs
    cases c <;> cases outs with
    | nil => rfl
    | cons o rest => cases o <;> rfl
  · intro c o1 o2
    cases c <;> cases o1 <;> cases o2 <;> rfl
  · intro c o1 o2
    cases c <;> cases o1 <;> cases o2 <;> rfl
  · intro c outs
    cases c <;> cases outs with
    | nil => rfl
    | cons o rest => cases o <;> rfl
  · intro c o1 o2
    cases c <;> cases o1 <;> cases o2 <;> rfl
  · intro c b data outs
    unfold BaseSocket.sendall BaseSocket.sendallGo
    rw [if_pos (hpos b data)]
    cases c with
    | true => rfl
    | false =>
      cases outs with
      | nil => rfl
      | cons o rest => cases o <;> rfl
  · intro raw0 steps
    simpa [BaseSocket.start_tls] using
      startTlsGo_no_check (Handle.tls raw0) raw0 steps

/-- Claim C8: when a TLS-configured listener's `accept` sees the upgrade
(or any later step) fail, the accepted socket is closed and the failure is
propagated; on success the returned stream carries the TLS-upgraded
wrapper of the accepted socket. -/
theorem server_accept_closes_on_failure (sock0 : Handle) (steps : List HsStep) :
    (∀ e, (BaseSocket.start_tls sock0 steps).1 = .error e →
      (serverAccept true sock0 steps).1 = .error e ∧
      (serverAccept true sock0 steps).2.2 = true) ∧
    ((BaseSocket.start_tls sock0 steps).1 = .ok () →
      (serverAccept true sock0 steps).1 = .ok (Handle.tls sock0) ∧
      (serverAccept true sock0 steps).2.2 = false) := by
  constructor
  · intro e he
    constructor
    · simp [serverAccept, he]
    · simp [serverAccept, he]
  · intro hok
    have hraw : (BaseSocket.start_tls sock0 steps).2.1 = Handle.tls sock0 := by
      simp only [BaseSocket.start_tls]
      exact startTlsGo_ok_handle (Handle.tls sock0) sock0 steps
        (by simpa [BaseSocket.start_tls] using hok)
    constructor
    · simp [serverAccept, hok, hraw]
    · simp [serverAccept, hok]

/-- Witness for `server_accept_closes_on_failure` at a concrete failing
handshake: the upgrade fails, the error propagates and the accepted socket
ends up closed. -/
theorem server_accept_closes_on_failure_witness :
    (BaseSocket.start_tls (Handle.base 3) [.fail]).1 = .error .hsFail ∧
    (serverAccept true (Handle.base 3) [.fail]).1 = .error Err.hsFail ∧
    (serverAccept true (Handle.base 3) [.fail]).2.2 = true := by
  have h := (server_accept_closes_on_failure (Handle.base 3) [.fail]).1
    Err.hsFail rfl
  exact ⟨rfl, h.1, h.2⟩

/-- Claim C10: `DatagramSocket.send` uses `sendto` only when both `address`
and `port` are given; a partial destination (exactly one of them `None`) is
silently ignored and the datagram goes out via `send` on the implicitly
connected socket. -/
theorem datagram_send_partial_destination_ignored :
    ∀ (data : List Nat) (a p : Nat),
      DatagramSocket.send data (some a) none = DgAction.send data ∧
      DatagramSocket.send data none (some p) = DgAction.send data ∧
      DatagramSocket.send data none none = DgAction.send data ∧
      DatagramSocket.send data (some a) (some p) = DgAction.sendto data (a, p) := by
  intro data a p
  exact ⟨rfl, rfl, rfl, rfl⟩

theorem streamBytes_pullIfEmpty (s : NetStream) :
    streamBytes (pullIfEmpty s) = streamBytes s := by
  rcases s with ⟨avail, arrivals⟩
  cases avail with
  | nil =>
    cases arrivals with
    | nil => rfl
    | cons c cs => simp [pullIfEmpty, streamBytes]
  | cons a as => rfl

theorem chunksOK_pullIfEmpty (s : NetStream) (h : chunksOK s) :
    chunksOK (pullIfEmpty s) := by
  rcases s with ⟨avail, arrivals⟩
  cases avail with
  | nil =>
    cases arrivals with
    | nil => exact h
    | cons c cs => exact fun x hx => h x (List.mem_cons_of_mem c hx)
  | cons a as => exact h

theorem pullIfEmpty_avail_ne (s : NetStream) (hok : chunksOK s)
    (hne : streamBytes s ≠ []) : (pullIfEmpty s).avail ≠ [] := by
  rcases s with ⟨avail, arrivals⟩
  cases avail with
  | nil =>
    cases arrivals with
    | nil => simp [streamBytes] at hne
    | cons c cs =>
      simpa [pullIfEmpty] using hok c (List.mem_cons_self c cs)
  | cons a as => simp [pullIfEmpty]

theorem pullIfEmpty_of_avail_ne (s : NetStream) (h : s.avail ≠ []) :
    pullIfEmpty s = s := by
  rcases s with ⟨avail, arrivals⟩
  cases avail with
  | nil => simp at h
  | cons a as => rfl

theorem netStream_empty (s : NetStream) (hok : chunksOK s)
    (h : streamBytes s = []) : s.avail = [] ∧ s.arrivals = [] := by
  rcases s with ⟨avail, arrivals⟩
  simp only [streamBytes, List.append_eq_nil] at h
  obtain ⟨h1, h2⟩ := h
  cases arrivals with
  | nil => exact ⟨h1, rfl⟩
  | cons c cs =>
    exfalso
    have hc : c ≠ [] := hok c (List.mem_cons_self c cs)
    have hcc : c ++ cs.flatten = [] := by simpa using h2
    exact hc (List.append_eq_nil.mp hcc).1

theorem take_length_take {α : Type} (n : Nat) (l : List α) :
    l.take ((l.take n).length) = l.take n := by
  rw [List.length_take]
  rcases Nat.le_total n l.length with h | h
  · rw [Nat.min_eq_left h]
  · rw [Nat.min_eq_right h, List.take_of_length_le h,
      List.take_of_length_le (Nat.le_refl _)]

theorem recvConsume_spec (size : Nat) (s : NetStream) (hok : chunksOK s)
    (hne : streamBytes s ≠ []) (hsz : 0 < size) :
    (recvConsume size s).1 ≠ [] ∧
    (recvConsume size s).1.length ≤ size ∧
    (recvConsume size s).1 =
      (streamBytes s).take (recvConsume size s).1.length ∧
    streamBytes (recvConsume size s).2 =
      (streamBytes s).drop (recvConsume size s).1.length ∧
    chunksOK (recvConsume size s).2 := by
  have hsb := streamBytes_pullIfEmpty s
  have hokt := chunksOK_pullIfEmpty s hok
  have hav := pullIfEmpty_avail_ne s hok hne
  have hc : recvConsume size s =
      ((pullIfEmpty s).avail.take size,
        ⟨(pullIfEmpty s).avail.drop size, (pullIfEmpty s).arrivals⟩) := rfl
  set t := pullIfEmpty s with ht
  rw [hc]
  have hkmin : ((t.avail.take size).length) = min size t.avail.length :=
    List.length_take size t.avail
  have hkle : ((t.avail.take size).length) ≤ t.avail.length := by
    rw [hkmin]; exact Nat.min_le_right _ _
  refine ⟨?_, ?_, ?_, ?_, ?_⟩
  · intro hemp
    rcases List.take_eq_nil_iff.mp hemp with h0 | h0
    · omega
    · exact hav h0
  · exact List.length_take_le size t.avail
  · rw [← hsb]
    show t.avail.take size =
      (t.avail ++ t.arrivals.flatten).take ((t.avail.take size).length)
    rw [List.take_append_of_le_length hkle]
    exact (take_length_take size t.avail).symm
  · rw [← hsb]
    show streamBytes ⟨t.avail.drop size, t.arrivals⟩ =
      (t.avail ++ t.arrivals.flatten).drop ((t.avail.take size).length)
    simp only [streamBytes]
    rcases Nat.le_total size t.avail.length with h | h
    · rw [List.drop_append_of_le_length hkle, hkmin, Nat.min_eq_left h]
    · rw [hkmin, Nat.min_eq_right h, List.drop_left,
        List.drop_of_length_le h, List.nil_append]
  · exact fun c hc2 => hokt c hc2

theorem recvConsume_empty (size : Nat) (s : NetStream) (hok : chunksOK s)
    (h : streamBytes s = []) :
    (recvConsume size s).1 = [] ∧ streamBytes (recvConsume size s).2 = [] ∧
    chunksOK (recvConsume size s).2 := by
  obtain ⟨h1, h2⟩ := netStream_empty s hok h
  rcases s with ⟨avail, arrivals⟩
  simp only at h1 h2
  subst h1
  subst h2
  refine ⟨?_, ?_, ?_⟩
  · simp [recvConsume, pullIfEmpty]
  · simp [recvConsume, pullIfEmpty, streamBytes]
  · simp [recvConsume, pullIfEmpty, chunksOK]

theorem recvPeek_spec (size : Nat) (s : NetStream) (hok : chunksOK s)
    (hne : streamBytes s ≠ []) (hsz : 0 < size) :
    (recvPeek size s).1 ≠ [] ∧
    (recvPeek size s).1.length ≤ size ∧
    (recvPeek size s).1 = (streamBytes s).take (recvPeek size s).1.length ∧
    streamBytes (recvPeek size s).2 = streamBytes s ∧
    chunksOK (recvPeek size s).2 ∧
    ∀ m, m ≤ (recvPeek size s).1.length →
      streamBytes (recvConsume m (recvPeek size s).2).2 =
        (streamBytes s).drop m ∧
      chunksOK (recvConsume m (recvPeek size s).2).2 := by
  have hsb := streamBytes_pullIfEmpty s
  have hokt := chunksOK_pullIfEmpty s hok
  have hav := pullIfEmpty_avail_ne s hok hne
  have hp : recvPeek size s = ((pullIfEmpty s).avail.take size, pullIfEmpty s) :=
    rfl
  set t := pullIfEmpty s with ht
  rw [hp]
  have hkmin : ((t.avail.take size).length) = min size t.avail.length :=
    List.length_take size t.avail
  have hkle : ((t.avail.take size).length) ≤ t.avail.length := by
    rw [hkmin]; exact Nat.min_le_right _ _
  refine ⟨?_, ?_, ?_, ?_, ?_, ?_⟩
  · intro hemp
    rcases List.take_eq_nil_iff.mp hemp with h0 | h0
    · omega
    · exact hav h0
  · exact List.length_take_le size t.avail
  · rw [← hsb]
    show t.avail.take size =
      (t.avail ++ t.arrivals.flatten).take ((t.avail.take size).length)
    rw [List.take_append_of_le_length hkle]
    exact (take_length_take size t.avail).symm
  · exact hsb
  · exact hokt
  · intro m hm
    have hmle : m ≤ t.avail.length := Nat.le_trans hm hkle
    have hcon : recvConsume m t =
        (t.avail.take m, ⟨t.avail.drop m, t.arrivals⟩) := by
      unfold recvConsume
      rw [pullIfEmpty_of_avail_ne t hav]
    constructor
    · show streamBytes (recvConsume m t).2 = (streamBytes s).drop m
      rw [hcon, ← hsb]
      show streamBytes ⟨t.avail.drop m, t.arrivals⟩ =
        (t.avail ++ t.arrivals.flatten).drop m
      simp only [streamBytes]
      rw [List.drop_append_of_le_length hmle]
    · show chunksOK (recvConsume m t).2
      rw [hcon]
      exact fun c hc2 => hokt c hc2

theorem receiveExactlyGo_ok :
    ∀ (fuel n : Nat) (acc : List Nat) (s : NetStream), chunksOK s →
    n < fuel → n ≤ (streamBytes s).length →
    (receiveExactlyGo fuel n acc s).1 = .ok (acc ++ (streamBytes s).take n) ∧
    streamBytes (receiveExactlyGo fuel n acc s).2 = (streamBytes s).drop n := by
  intro fuel
  induction fuel with
  | zero => intro n acc s _ hlt _; omega
  | succ fuel ih =>
    intro n acc s hok hlt hlen
    by_cases hn : 0 < n
    · have hne : streamBytes s ≠ [] := by
        intro h0
        rw [h0] at hlen
        simp at hlen
        omega
      obtain ⟨hd, hdle, hdeq, hdrop, hok2⟩ := recvConsume_spec n s hok hne hn
      have hkpos : 0 < (recvConsume n s).1.length := List.length_pos.mpr hd
      have hkle : (recvConsume n s).1.length ≤ (streamBytes s).length := by
        have := congrArg List.length hdeq
        simp [List.length_take] at this
        omega
      set k := (recvConsume n s).1.length with hk
      have hrec := ih (n - k) (acc ++ (recvConsume n s).1) (recvConsume n s).2
        hok2 (by omega) (by rw [hdrop]; simp [List.length_drop]; omega)
      have hgo : receiveExactlyGo (fuel + 1) n acc s =
          receiveExactlyGo fuel (n - k) (acc ++ (recvConsume n s).1)
            (recvConsume n s).2 := by
        simp only [receiveExactlyGo, if_pos hn]
        rw [if_neg hd]
      rw [hgo]
      constructor
      · rw [hrec.1, hdeq, hdrop]
        rw [List.append_assoc]
        have : (streamBytes s).take k ++
            ((streamBytes s).drop k).take (n - k) = (streamBytes s).take n := by
          rw [← List.take_add]
          congr 1
          omega
        rw [← this]
      · rw [hrec.2, hdrop, List.drop_drop]
        congr 1
        omega
    · have hn0 : n = 0 := by omega
      subst hn0
      simp only [receiveExactlyGo]
      simp

theorem receiveExactlyGo_incomplete :
    ∀ (fuel n : Nat) (acc : List Nat) (s : NetStream), chunksOK s →
    n < fuel → (streamBytes s).length < n →
    (receiveExactlyGo fuel n acc s).1 =
      .error (.IncompleteRead (acc ++ streamBytes s)) := by
  intro fuel
  induction fuel with
  | zero => intro n acc s _ hlt _; omega
  | succ fuel ih =>
    intro n acc s hok hlt hlen
    have hn : 0 < n := by omega
    by_cases hne : streamBytes s = []
    · obtain ⟨h1, h2, h3⟩ := recvConsume_empty n s hok hne
      simp only [receiveExactlyGo, if_pos hn]
      rw [if_pos h1, hne, List.append_nil]
    · obtain ⟨hd, hdle, hdeq, hdrop, hok2⟩ := recvConsume_spec n s hok hne hn
      have hkpos : 0 < (recvConsume n s).1.length := List.length_pos.mpr hd
      have hkle : (recvConsume n s).1.length ≤ (streamBytes s).length := by
        have := congrArg List.length hdeq
        simp [List.length_take] at this
        omega
      set k := (recvConsume n s).1.length with hk
      have hrec := ih (n - k) (acc ++ (recvConsume n s).1) (recvConsume n s).2
        hok2 (by omega) (by rw [hdrop]; simp [List.length_drop]; omega)
      have hgo : receiveExactlyGo (fuel + 1) n acc s =
          receiveExactlyGo fuel (n - k) (acc ++ (recvConsume n s).1)
            (recvConsume n s).2 := by
        simp only [receiveExactlyGo, if_pos hn]
        rw [if_neg hd]
      rw [hgo, hrec, hdrop, hdeq]
      rw [List.append_assoc, List.take_append_drop]

/-- Claim C5: `receive_exactly(n)` on a stream holding at least `n` bytes
(across arbitrarily fragmented positive-size deliveries) returns exactly
the first `n` bytes and consumes exactly them; if the stream ends before
`n` bytes accumulate, it fails with `IncompleteRead` carrying exactly the
bytes accumulated so far. -/
theorem receive_exactly_exact_bytes (n : Nat) (s : NetStream)
    (hok : chunksOK s) :
    (n ≤ (streamBytes s).length →
      (receive_exactly n s).1 = .ok ((streamBytes s).take n) ∧
      streamBytes (receive_exactly n s).2 = (streamBytes s).drop n) ∧
    ((streamBytes s).length < n →
      (receive_exactly n s).1 = .error (.IncompleteRead (streamBytes s))) := by
  constructor
  · intro hlen
    have h := receiveExactlyGo_ok (n + 1) n [] s hok (by omega) hlen
    simpa [receive_exactly] using h
  · intro hlen
    have h := receiveExactlyGo_incomplete (n + 1) n [] s hok (by omega) hlen
    simpa [receive_exactly] using h

/-- Witness for `receive_exactly_exact_bytes`: a stream delivering
`[5]` then `[6, 7]` then `[8]` yields `[5, 6, 7]` for `receive_exactly 3`,
and a stream holding only `[9]` makes `receive_exactly 5` fail with
`IncompleteRead [9]`. -/
theorem receive_exactly_exact_bytes_witness :
    (receive_exactly 3 ⟨[5], [[6, 7], [8]]⟩).1 = .ok [5, 6, 7] ∧
    (receive_exactly 5 ⟨[9], []⟩).1 = .error (.IncompleteRead [9]) := by
  constructor
  · exact ((receive_exactly_exact_bytes 3 ⟨[5], [[6, 7], [8]]⟩
      (by decide)).1 (by decide)).1
  · exact (receive_exactly_exact_bytes 5 ⟨[9], []⟩ (by decide)).2 (by decide)

theorem receiveChunksGo_spec :
    ∀ (fuel maxSize : Nat) (s : NetStream), chunksOK s → 0 < maxSize →
    (streamBytes s).length < fuel →
    ∃ chunks s2, receiveChunksGo maxSize fuel s = some (chunks, s2) ∧
      (∀ c ∈ chunks, c ≠ []) ∧ chunks.flatten = streamBytes s ∧
      streamBytes s2 = [] := by
  intro fuel
  induction fuel with
  | zero => intro maxSize s _ _ hlt; omega
  | succ fuel ih =>
    intro maxSize s hok hpos hlt
    by_cases hne : streamBytes s = []
    · obtain ⟨h1, h2, h3⟩ := recvConsume_empty maxSize s hok hne
      refine ⟨[], (recvConsume maxSize s).2, ?_, ?_, ?_, h2⟩
      · simp only [receiveChunksGo]
        rw [if_pos h1]
      · simp
      · simp [hne]
    · obtain ⟨hd, hdle, hdeq, hdrop, hok2⟩ :=
        recvConsume_spec maxSize s hok hne hpos
      have hkpos : 0 < (recvConsume maxSize s).1.length :=
        List.length_pos.mpr hd
      have hkle : (recvConsume maxSize s).1.length ≤ (streamBytes s).length := by
        have := congrArg List.length hdeq
        simp [List.length_take] at this
        omega
      obtain ⟨chunks, s2, hgo, hcne, hflat, hs2⟩ :=
        ih maxSize (recvConsume maxSize s).2 hok2 hpos
          (by rw [hdrop]; simp [List.length_drop]; omega)
      refine ⟨(recvConsume maxSize s).1 :: chunks, s2, ?_, ?_, ?_, hs2⟩
      · simp only [receiveChunksGo]
        rw [if_neg hd, hgo]
      · intro c hc
        rcases List.mem_cons.mp hc with h | h
        · rw [h]; exact hd
        · exact hcne c h
      · simp only [List.flatten_cons]
        rw [hflat, hdrop]
        nth_rewrite 1 [hdeq]
        rw [List.take_append_drop]

/-- Claim C9: `receive_chunks(max_size)` yields only non-empty chunks,
terminates without error exactly at the first empty `receive_some` (end of
stream), and the concatenation of the yielded chunks is exactly the bytes
the successive `receive_some` calls delivered (the whole stream). -/
theorem receive_chunks_all_bytes (maxSize : Nat) (s : NetStream)
    (hok : chunksOK s) (hpos : 0 < maxSize) :
    ∃ chunks s2, receive_chunks maxSize s = some (chunks, s2) ∧
      (∀ c ∈ chunks, c ≠ []) ∧ chunks.flatten = streamBytes s ∧
      streamBytes s2 = [] :=
  receiveChunksGo_spec ((streamBytes s).length + 1) maxSize s hok hpos
    (by omega)

/-- Witness for `receive_chunks_all_bytes` on the stream `[1, 2, 3]` read
in chunks of at most 2 bytes. -/
theorem receive_chunks_all_bytes_witness :
    ∃ chunks s2, receive_chunks 2 ⟨[1, 2, 3], []⟩ = some (chunks, s2) ∧
      (∀ c ∈ chunks, c ≠ []) ∧ chunks.flatten = streamBytes ⟨[1, 2, 3], []⟩ ∧
      streamBytes s2 = [] :=
  receive_chunks_all_bytes 2 ⟨[1, 2, 3], []⟩ (by decide) (by decide)

theorem findFrom_eq_none (buf d : List Nat)
    (h : ∀ i, (buf.drop i).take d.length ≠ d) :
    ∀ (fuel i : Nat), findFrom buf d i fuel = none := by
  intro fuel
  induction fuel with
  | zero => intro i; rfl
  | succ fuel ih =>
    intro i
    simp only [findFrom]
    rw [if_neg (h i)]
    exact ih (i + 1)

theorem pyFind_eq_neg_one (buf d : List Nat)
    (h : ∀ i, (buf.drop i).take d.length ≠ d) (start : Int) :
    pyFind buf d start = -1 := by
  simp only [pyFind]
  rw [findFrom_eq_none buf d h]

theorem findFrom_eq_some (buf d : List Nat) (t : Nat)
    (hmatch : (buf.drop t).take d.length = d) :
    ∀ (fuel i : Nat), i ≤ t → t - i < fuel →
    (∀ j, i ≤ j → j < t → (buf.drop j).take d.length ≠ d) →
    findFrom buf d i fuel = some t := by
  intro fuel
  induction fuel with
  | zero => intro i h1 h2 _; omega
  | succ fuel ih =>
    intro i h1 h2 hno
    by_cases hit : i = t
    · subst hit
      simp only [findFrom]
      rw [if_pos hmatch]
    · have hni : (buf.drop i).take d.length ≠ d := hno i (Nat.le_refl i) (by omega)
      simp only [findFrom]
      rw [if_neg hni]
      exact ih (i + 1) (by omega) (by omega) (fun j hj1 hj2 => hno j (by omega) hj2)

theorem pyFind_first_occurrence (buf d : List Nat) (t : Nat)
    (hmatch : (buf.drop t).take d.length = d) (ht : t ≤ buf.length)
    (hno : ∀ j, j < t → (buf.drop j).take d.length ≠ d) :
    pyFind buf d 0 = (t : Int) := by
  simp only [pyFind]
  have hs : (if (0 : Int) < 0 then ((buf.length : Int) + 0).toNat
      else (0 : Int).toNat) = 0 := by norm_num
  rw [hs]
  rw [findFrom_eq_some buf d t hmatch (buf.length + 1 - 0) 0 (Nat.zero_le t)
    (by omega) (fun j _ hj => hno j hj)]

theorem no_match_take (T d : List Nat) (n : Nat)
    (h : ∀ i, (T.drop i).take d.length ≠ d) :
    ∀ i, ((T.take n).drop i).take d.length ≠ d := by
  intro i hc
  rw [List.drop_take, List.take_take] at hc
  have hlen := congrArg List.length hc
  simp only [List.length_take, List.length_drop] at hlen
  have h1 : d.length ≤ min d.length (n - i) := by
    calc d.length = min (min d.length (n - i)) (T.length - i) := hlen.symm
      _ ≤ min d.length (n - i) := Nat.min_le_left _ _
  have hmin : min d.length (n - i) = d.length :=
    Nat.le_antisymm (Nat.min_le_left _ _) h1
  rw [hmin] at hc
  exact h i hc

/-- Claim C2, counterexample: on a stream delivering `"a"` then
`"b\nXY"`, `receive_until("\n", 100)` does return the payload `"ab"`, but
it consumes `index + len(delimiter)` bytes on top of the fragments it
already drained, so only `"Y"` — not `"XY"` — remains readable; and for
`p = "a"`, `d = "aa"` (where `p` does not contain `d` but `d` overlaps
into `p ++ d`), a single-fragment stream `"aaa"` makes it return `""`
instead of `p`. -/
theorem receive_until_consumes_beyond_delimiter :
    (receive_until [10] 100 ⟨[97], [[98, 10, 88, 89]]⟩).1 = .ok [97, 98] ∧
    streamBytes (receive_until [10] 100 ⟨[97], [[98, 10, 88, 89]]⟩).2 = [89] ∧
    ([89] : List Nat) ≠ [88, 89] ∧
    (receive_until [97, 97] 100 ⟨[97, 97, 97], []⟩).1 = .ok [] ∧
    (receive_until [97, 97] 100 ⟨[97, 97, 97], []⟩).1 ≠ .ok [97] := by
  refine ⟨rfl, rfl, by decide, rfl, ?_⟩
  intro h
  exact absurd (Except.ok.inj ((rfl :
    (receive_until [97, 97] 100 ⟨[97, 97, 97], []⟩).1 = .ok []).symm.trans h))
    (by decide)

/-- Claim C6: the offset update in `receive_until` is claimed to be clamped
so that no unscanned data is skipped and a delimiter straddling a peek
boundary is always found.  There is no clamp in the code: after a 1-byte
first peek with a 3-byte delimiter the offset becomes `-1`, which Python's
`find` interprets relative to the end of the buffer, skipping everything
scanned so far.  On the stream `"xyzABC"` delivered as `"x"` then
`"yzABC"` with delimiter `"xyz"` and `max_size = 6`, the delimiter starts
at index 0 and straddles the peek boundary, yet the call ends in
`DelimiterNotFound` over a buffer whose first three bytes are exactly the
delimiter. -/
theorem receive_until_misses_straddling_delimiter :
    (receive_until [120, 121, 122] 6 ⟨[120], [[121, 122, 65, 66, 67]]⟩).1 =
      .error (.DelimiterNotFound [120, 121, 122, 65, 66, 67]) ∧
    (([120, 121, 122, 65, 66, 67] : List Nat).take 3 = [120, 121, 122]) := by
  exact ⟨rfl, by decide⟩

theorem scan_region_extend (SB buf : List Nat) (maxSize k : Nat)
    (hk : k ≤ maxSize - buf.length) :
    buf ++ SB.take k ++ (SB.drop k).take (maxSize - (buf.length + k)) =
      buf ++ SB.take (maxSize - buf.length) := by
  rw [List.append_assoc]
  congr 1
  rw [← List.take_add]
  congr 1
  omega

theorem scan_region_drop (SB : List Nat) (bufLen maxSize k : Nat)
    (hk : k ≤ maxSize - bufLen) :
    (SB.drop k).drop (maxSize - (bufLen + k)) = SB.drop (maxSize - bufLen) := by
  rw [List.drop_drop]
  congr 1
  omega

theorem receiveUntilGo_notfound (d : List Nat) (maxSize : Nat) :
    ∀ (fuel : Nat) (offset : Int) (buf : List Nat) (s : NetStream),
    chunksOK s →
    maxSize - buf.length < fuel →
    maxSize ≤ buf.length + (streamBytes s).length →
    (∀ i, ((buf ++ (streamBytes s).take (maxSize - buf.length)).drop i).take
      d.length ≠ d) →
    (receiveUntilGo d maxSize fuel offset buf s).1 =
      .error (.DelimiterNotFound
        (buf ++ (streamBytes s).take (maxSize - buf.length))) ∧
    streamBytes (receiveUntilGo d maxSize fuel offset buf s).2 =
      (streamBytes s).drop (maxSize - buf.length) := by
  intro fuel
  induction fuel with
  | zero => intro offset buf s _ hf _ _; omega
  | succ fuel ih =>
    intro offset buf s hok hf hlen hno
    by_cases hb : buf.length < maxSize
    · have hm : 0 < maxSize - buf.length := by omega
      have hne : streamBytes s ≠ [] := by
        intro h0
        rw [h0] at hlen
        simp at hlen
        omega
      obtain ⟨hd1, hdle, hdeq, hsb1, hok1, hcons⟩ :=
        recvPeek_spec (maxSize - buf.length) s hok hne hm
      obtain ⟨hSB2, hok2⟩ :=
        hcons (recvPeek (maxSize - buf.length) s).1.length (Nat.le_refl _)
      have hkSB : (recvPeek (maxSize - buf.length) s).1.length ≤
          (streamBytes s).length := by
        have := congrArg List.length hdeq
        simp [List.length_take] at this
        omega
      set data := (recvPeek (maxSize - buf.length) s).1 with hdata
      set k := data.length with hk
      -- the extended buffer is a take of the full scan region
      have hbufk : buf ++ data =
          (buf ++ (streamBytes s).take (maxSize - buf.length)).take
            (buf.length + k) := by
        rw [List.take_append]
        congr 1
        rw [hdeq, List.take_take]
        congr 1
        exact (Nat.min_eq_left hdle).symm
      have hno2 : ∀ i, ((buf ++ data).drop i).take d.length ≠ d := by
        rw [hbufk]
        exact no_match_take _ d _ hno
      have hfind : pyFind (buf ++ data) d offset = -1 :=
        pyFind_eq_neg_one (buf ++ data) d hno2 offset
      have hstep : receiveUntilGo d maxSize (fuel + 1) offset buf s =
          receiveUntilGo d maxSize fuel (offset + ↑k - ↑d.length + 1)
            (buf ++ data)
            (recvConsume k (recvPeek (maxSize - buf.length) s).2).2 := by
        simp only [receiveUntilGo]
        rw [if_pos hb, if_neg hd1, hfind]
        norm_num
      rw [hstep]
      have hih := ih (offset + ↑k - ↑d.length + 1) (buf ++ data)
        (recvConsume k (recvPeek (maxSize - buf.length) s).2).2 hok2
        (by
          simp only [List.length_append]
          have hkpos : 0 < k := by
            rw [hk]
            exact List.length_pos.mpr hd1
          omega)
        (by
          rw [hSB2]
          simp only [List.length_append, List.length_drop]
          omega)
        (by
          intro i
          rw [hSB2]
          simp only [List.length_append]
          nth_rewrite 1 [hdeq]
          rw [scan_region_extend (streamBytes s) buf maxSize k (by omega)]
          exact hno i)
      constructor
      · rw [hih.1]
        rw [hSB2]
        simp only [List.length_append]
        nth_rewrite 1 [hdeq]
        rw [scan_region_extend (streamBytes s) buf maxSize k (by omega)]
      · rw [hih.2]
        rw [hSB2]
        simp only [List.length_append]
        rw [scan_region_drop (streamBytes s) buf.length maxSize k (by omega)]
    · have hm0 : maxSize - buf.length = 0 := by omega
      simp only [receiveUntilGo]
      rw [if_neg hb, hm0]
      simp

/-- Claim C7: when the scanned bytes reach `max_size` without the delimiter
occurring anywhere in them, `receive_until` fails with `DelimiterNotFound`
carrying exactly the first `max_size` stream bytes, and exactly those bytes
were consumed (the rest of the stream remains); since the carried buffer is
the stream's `max_size`-byte prefix irrespective of how the peeks
fragmented delivery, a fresh rerun over the same data with a larger bound
scans those same bytes again. -/
theorem receive_until_delimiter_not_found (d : List Nat) (maxSize : Nat)
    (s : NetStream) (hok : chunksOK s) (hnd : d ≠ [])
    (hlen : maxSize ≤ (streamBytes s).length)
    (hno : ∀ i, i ≤ maxSize →
      (((streamBytes s).take maxSize).drop i).take d.length ≠ d) :
    (receive_until d maxSize s).1 =
      .error (.DelimiterNotFound ((streamBytes s).take maxSize)) ∧
    streamBytes (receive_until d maxSize s).2 = (streamBytes s).drop maxSize := by
  have hno2 : ∀ i,
      (((streamBytes s).take maxSize).drop i).take d.length ≠ d := by
    intro i
    by_cases hi : i ≤ maxSize
    · exact hno i hi
    · have hdrop : ((streamBytes s).take maxSize).drop i = [] :=
        List.drop_of_length_le
          (by
            rw [List.length_take]
            have := Nat.min_le_left maxSize (streamBytes s).length
            omega)
      rw [hdrop]
      simp only [List.take_nil]
      exact fun h => hnd h.symm
  have h := receiveUntilGo_notfound d maxSize (maxSize + 1) 0 [] s hok
    (by simp) (by simpa using hlen) (by simpa using hno2)
  simpa [receive_until] using h

/-- Witness for `receive_until_delimiter_not_found`: scanning the stream
`[1] ++ [2, 3]` for the absent delimiter `[9]` with `max_size = 2` fails
with `DelimiterNotFound [1, 2]` and leaves `[3]` in the stream. -/
theorem receive_until_delimiter_not_found_witness :
    (receive_until [9] 2 ⟨[1], [[2, 3]]⟩).1 =
      .error (.DelimiterNotFound [1, 2]) ∧
    streamBytes (receive_until [9] 2 ⟨[1], [[2, 3]]⟩).2 = [3] :=
  receive_until_delimiter_not_found [9] 2 ⟨[1], [[2, 3]]⟩ (by decide)
    (by decide) (by decide) (by decide)

/-- Claim C2, amended: when the whole of `p ++ d` arrives in the first peek
(the stream preloaded in a single fragment) and no occurrence of `d` in the
peeked buffer begins before index `len(p)`, `receive_until(d, max)` with
`len(p) + len(d) ≤ max` returns exactly `p`, consumes exactly `p ++ d`, and
leaves `rest` available for subsequent reads. -/
theorem receive_until_single_peek (p d rest : List Nat) (maxSize : Nat)
    (hnd : d ≠ []) (hmax : p.length + d.length ≤ maxSize)
    (hno : ∀ j, j < p.length →
      (((p ++ d ++ rest).take maxSize).drop j).take d.length ≠ d) :
    (receive_until d maxSize ⟨p ++ d ++ rest, []⟩).1 = .ok p ∧
    streamBytes (receive_until d maxSize ⟨p ++ d ++ rest, []⟩).2 = rest := by
  have hdlen : 0 < d.length := List.length_pos.mpr hnd
  have hfull_ne : (p ++ d ++ rest) ≠ [] := by
    intro h
    exact hnd (List.append_eq_nil.mp (List.append_eq_nil.mp h).1).2
  have hpull : pullIfEmpty ⟨p ++ d ++ rest, []⟩ = ⟨p ++ d ++ rest, []⟩ :=
    pullIfEmpty_of_avail_ne ⟨p ++ d ++ rest, []⟩ hfull_ne
  have hbuf1_ne : (p ++ d ++ rest).take maxSize ≠ [] := by
    intro h
    rcases List.take_eq_nil_iff.mp h with h0 | h0
    · omega
    · exact hfull_ne h0
  have hmatch : (((p ++ d ++ rest).take maxSize).drop p.length).take d.length
      = d := by
    rw [List.drop_take, List.append_assoc,
      List.drop_left' (rfl : p.length = p.length),
      List.take_take, Nat.min_eq_left (by omega),
      List.take_left' (rfl : d.length = d.length)]
  have ht_le : p.length ≤ ((p ++ d ++ rest).take maxSize).length := by
    rw [List.length_take]
    refine Nat.le_min.mpr ⟨by omega, ?_⟩
    simp only [List.length_append]
    omega
  have hfind : pyFind ((p ++ d ++ rest).take maxSize) d 0 = (p.length : Int) :=
    pyFind_first_occurrence _ d p.length hmatch ht_le hno
  have hret : ((p ++ d ++ rest).take maxSize).take p.length = p := by
    rw [List.take_take, Nat.min_eq_left (by omega), List.append_assoc,
      List.take_left' (rfl : p.length = p.length)]
  have hdrop_rest : (p ++ d ++ rest).drop (p.length + d.length) = rest :=
    List.drop_left' (by simp [List.length_append])
  have hpeek : recvPeek maxSize ⟨p ++ d ++ rest, []⟩ =
      ((p ++ d ++ rest).take maxSize, ⟨p ++ d ++ rest, []⟩) := by
    simp only [recvPeek]
    rw [hpull]
  have hcons : recvConsume (p.length + d.length) ⟨p ++ d ++ rest, []⟩ =
      ((p ++ d ++ rest).take (p.length + d.length),
        ⟨(p ++ d ++ rest).drop (p.length + d.length), []⟩) := by
    simp only [recvConsume]
    rw [hpull]
  have hrun : receive_until d maxSize ⟨p ++ d ++ rest, []⟩ =
      (.ok p, ⟨rest, []⟩) := by
    simp only [receive_until, receiveUntilGo, List.length_nil, Nat.sub_zero,
      List.nil_append]
    rw [if_pos (show 0 < maxSize by omega)]
    simp only [hpeek]
    rw [if_neg hbuf1_ne]
    simp only [hfind]
    rw [if_pos (Int.natCast_nonneg p.length)]
    simp only [Int.toNat_natCast, hcons, hret, hdrop_rest]
  rw [hrun]
  exact ⟨rfl, by simp [streamBytes]⟩

/-- Witness for `receive_until_single_peek`: with `p = [1]`, `d = [2]`,
`rest = [3]` and `max_size = 10`, the call returns `[1]` and leaves `[3]`
in the stream. -/
theorem receive_until_single_peek_witness :
    (receive_until [2] 10 ⟨[1] ++ [2] ++ [3], []⟩).1 = .ok [1] ∧
    streamBytes (receive_until [2] 10 ⟨[1] ++ [2] ++ [3], []⟩).2 = [3] :=
  receive_until_single_peek [1] [2] [3] 10 (by decide) (by decide) (by decide)
